import Mathlib

/-!
Shallow embedding of `src/src/lib.rs` of the `classical_ciphers` crate.

Text buffers are modelled as `List Nat` (the bytes of the Rust `String`).
Fallible or non-terminating code is modelled with `Option`: a `none` result
stands for a Rust panic (out-of-bounds slice index) or for an infinite loop,
both of which never produce a value.  All `u8` arithmetic reachable from the
public entry points stays strictly below 256 (shift keys are reduced mod 26
at the call boundary before `rot_up` / `rot_down` are invoked), so plain
`Nat` arithmetic is a faithful model of the `u8` operations on the reachable
domain.
-/

set_option linter.unusedVariables false

/-- Embedding of `Ciphers::rot_up`.  The source matches on `x` with guards
`key + x > b'Z'` (resp. `b'z'`) and recursively wraps with
`rot_wrap_up(b) = key - (b - x + 1)`, else returns `x + key`.
`b'A' = 65`, `b'Z' = 90`, `b'a' = 97`, `b'z' = 122`. -/
def rot_up (key : Nat) (x : Nat) : Nat :=
  if h1 : 65 ≤ x ∧ x ≤ 90 ∧ 90 < key + x then
    rot_up (key - (90 - x + 1)) 65
  else if h2 : 97 ≤ x ∧ x ≤ 122 ∧ 122 < key + x then
    rot_up (key - (122 - x + 1)) 97
  else x + key
termination_by key
decreasing_by
  all_goals omega

/-- Embedding of `Ciphers::rot_down`.  The source matches on `x` with guards
`x - key < b'A'` (resp. `b'a'`, with `u8` truncated subtraction, modelled by
`Nat` truncated subtraction) and recursively wraps with
`rot_wrap_down(b) = key - (x - b + 1)`, else returns `x - key`. -/
def rot_down (key : Nat) (x : Nat) : Nat :=
  if h1 : 65 ≤ x ∧ x ≤ 90 ∧ x - key < 65 then
    rot_down (key - (x - 65 + 1)) 90
  else if h2 : 97 ≤ x ∧ x ≤ 122 ∧ x - key < 97 then
    rot_down (key - (x - 97 + 1)) 122
  else x - key
termination_by key
decreasing_by
  all_goals omega

/-- Embedding of `Ciphers::rot_vec_up`: rotate every byte in
`b'A'..=b'Z'` or `b'a'..=b'z'`, leave every other byte unchanged. -/
def rot_vec_up (key : Nat) (org : List Nat) : List Nat :=
  org.map (fun c => if (65 ≤ c ∧ c ≤ 90) ∨ (97 ≤ c ∧ c ≤ 122) then rot_up key c else c)

/-- Embedding of `Ciphers::rot_vec_down`. -/
def rot_vec_down (key : Nat) (org : List Nat) : List Nat :=
  org.map (fun c => if (65 ≤ c ∧ c ≤ 90) ∨ (97 ≤ c ∧ c ≤ 122) then rot_down key c else c)

/-- Embedding of `Ciphers::shift_encrypt` (in-place mutation of the byte
vector, rendered functionally). -/
def shift_encrypt (key : Nat) (original_text : List Nat) : List Nat :=
  rot_vec_up key original_text

/-- Embedding of `Ciphers::shift_decrypt`. -/
def shift_decrypt (key : Nat) (cipher_text : List Nat) : List Nat :=
  rot_vec_down key cipher_text

/-- One iteration (index `i`) of the loop in `Ciphers::encrypt_with_accord`.
The loop state is the block `v` together with the scratch `HashMap num`,
modelled as a function `Nat → Option Nat` (`none` = key absent).  The source
does `num.insert(i, v[i])`, then writes `v[i] = num.remove(&acc[i]).unwrap()`
if `num` contains `acc[i]`, else `v[i] = v[acc[i]]`.  An out-of-bounds index
(`v[acc[i]]` with `acc[i] ≥ v.len()`) is a Rust panic, modelled as `none`. -/
def encrypt_with_accord_step (acc : List Nat)
    (st : Option (List Nat × (Nat → Option Nat))) (i : Nat) :
    Option (List Nat × (Nat → Option Nat)) :=
  match st with
  | none => none
  | some (v, num) =>
    match v[i]?, acc[i]? with
    | some vi, some ai =>
      let num1 : Nat → Option Nat := fun j => if j = i then some vi else num j
      match num1 ai with
      | some x => some (v.set i x, fun j => if j = ai then none else num1 j)
      | none =>
        match v[ai]? with
        | some va => some (v.set i va, num1)
        | none => none
    | _, _ => none

/-- Embedding of `Ciphers::encrypt_with_accord` (the source loops
`for i in 0..v.len()`). -/
def encrypt_with_accord (acc : List Nat) (v : List Nat) : Option (List Nat) :=
  ((List.range v.length).foldl (encrypt_with_accord_step acc)
    (some (v, fun _ => none))).map Prod.fst

/-- One iteration (index `i`) of the loop in `Ciphers::decrypt_with_accord`.
The source does `num.insert(acc[acc[i]], v[acc[i]])`, then writes
`v[acc[i]] = num.remove(&acc[i]).unwrap()` if `num` contains `acc[i]`,
else `v[acc[i]] = v[i]`. -/
def decrypt_with_accord_step (acc : List Nat)
    (st : Option (List Nat × (Nat → Option Nat))) (i : Nat) :
    Option (List Nat × (Nat → Option Nat)) :=
  match st with
  | none => none
  | some (v, num) =>
    match acc[i]? with
    | none => none
    | some ai =>
      match acc[ai]?, v[ai]?, v[i]? with
      | some aai, some vai, some vi =>
        let num1 : Nat → Option Nat := fun j => if j = aai then some vai else num j
        match num1 ai with
        | some x => some (v.set ai x, fun j => if j = ai then none else num1 j)
        | none => some (v.set ai vi, num1)
      | _, _, _ => none

/-- Embedding of `Ciphers::decrypt_with_accord`. -/
def decrypt_with_accord (acc : List Nat) (v : List Nat) : Option (List Nat) :=
  ((List.range v.length).foldl (decrypt_with_accord_step acc)
    (some (v, fun _ => none))).map Prod.fst

/-- Embedding of the block loop shared by `Ciphers::encrypt_trans_vec` and
`Ciphers::decrypt_trans_vec`: `while i + key_size < org.len()` process the
block `org[i..key_size + i]` with the accord routine and advance
`i += key_size`.  Because consecutive blocks are disjoint, the loop is
rendered as recursion on the remaining suffix; the `fuel` argument (the loop
is always entered with `fuel = org.length`) only furnishes a structural
termination measure and is never exhausted when `key.length ≥ 1`.  With
`n = 0` and a nonempty buffer, the source loop never advances (`i += 0`)
and runs forever, modelled as `none`. -/
def trans_loop (f : List Nat → Option (List Nat)) (n : Nat) :
    Nat → List Nat → Option (List Nat)
  | 0, v => if n < v.length then none else some v
  | fuel + 1, v =>
    if n < v.length then
      if n = 0 then none
      else
        match f (v.take n) with
        | none => none
        | some b => (trans_loop f n fuel (v.drop n)).map (fun w => b ++ w)
    else some v

/-- Embedding of `Ciphers::encrypt_trans_vec`. -/
def encrypt_trans_vec (key : List Nat) (org : List Nat) : Option (List Nat) :=
  trans_loop (encrypt_with_accord key) key.length org.length org

/-- Embedding of `Ciphers::decrypt_trans_vec`. -/
def decrypt_trans_vec (key : List Nat) (org : List Nat) : Option (List Nat) :=
  trans_loop (decrypt_with_accord key) key.length org.length org

/-- Embedding of `Ciphers::trans_encrypt`. -/
def trans_encrypt (key : List Nat) (original_text : List Nat) : Option (List Nat) :=
  encrypt_trans_vec key original_text

/-- Embedding of `Ciphers::trans_decrypt`. -/
def trans_decrypt (key : List Nat) (cipher_text : List Nat) : Option (List Nat) :=
  decrypt_trans_vec key cipher_text

/-- Embedding of the `Ciphers` enum.  The shift key is a `u8`; we model it
as a `Nat` and state the relevant claims with the bound `key < 256`. -/
inductive Ciphers where
  | ShiftCipher (key : Nat)
  | TransCipher (key : List Nat)

/-- Embedding of `Ciphers::encrypt`: the shift key is reduced `% 26` at the
call boundary.  The result is an `Option` because the transposition branch
can panic or diverge (see `trans_loop`); the shift branch is total. -/
def Ciphers.encrypt : Ciphers → List Nat → Option (List Nat)
  | .ShiftCipher key, t => some (shift_encrypt (key % 26) t)
  | .TransCipher key, t => trans_encrypt key t

/-- Embedding of `Ciphers::decrypt`. -/
def Ciphers.decrypt : Ciphers → List Nat → Option (List Nat)
  | .ShiftCipher key, t => some (shift_decrypt (key % 26) t)
  | .TransCipher key, t => trans_decrypt key t

/-- The error taxonomy of the spec for the key generator. -/
inductive KeyGenError where
  | invalidKeySize
deriving DecidableEq

/-- Embedding of the `while v.len() != key_size` loop of
`Ciphers::trans_key_gen`.  The random draws of
`sample_iter(Uniform::new_inclusive(0, key_size-1))` are modelled by an
explicit list of draws, reduced `% key_size` to land in
`[0, key_size - 1]`; the `HashMap num` (whose key set is the set of values
seen so far, `entry(x).or_insert_with` pushing `x` exactly when it is
unseen) is modelled as a function `Nat → Bool`.  `none` means the supplied
draw list was exhausted before the loop finished. -/
def key_gen_loop (key_size : Nat) (draws : List Nat) (v : List Nat)
    (num : Nat → Bool) : Option (List Nat) :=
  if v.length = key_size then some v
  else
    match draws with
    | [] => none
    | d :: ds =>
      if num (d % key_size) then
        key_gen_loop key_size ds v num
      else
        key_gen_loop key_size ds (v ++ [d % key_size])
          (fun j => if j = d % key_size then true else num j)

/-- Embedding of `Ciphers::trans_key_gen`.  With `key_size == 0` the source
evaluates `key_size - 1`, a `usize` range underflow, i.e. the fail-fast
division/range failure that the spec's error taxonomy names
`InvalidKeySize`; it is modelled as `Except.error`.  Otherwise the rejection
sampling loop runs; `none` means the draw list ran out (the source would
keep drawing). -/
def trans_key_gen (key_size : Nat) (draws : List Nat) :
    Option (Except KeyGenError (List Nat)) :=
  if key_size = 0 then some (Except.error KeyGenError.invalidKeySize)
  else (key_gen_loop key_size draws [] (fun _ => false)).map Except.ok

/-- Modelled from the spec: the direct modular formula
`base + (x - base + key) mod 26` that §4.1 asserts to be algebraically
equivalent to the recursive `rot_up` on alphabetic bytes. -/
def shift_formula (key : Nat) (x : Nat) (base : Nat) : Nat :=
  base + ((x - base + key) % 26)

/-- The first `k` iterations of the `encrypt_with_accord` loop. -/
def enc_fold (acc v : List Nat) (k : Nat) : Option (List Nat × (Nat → Option Nat)) :=
  (List.range k).foldl (encrypt_with_accord_step acc) (some (v, fun _ => none))

/-- The first `k` iterations of the `decrypt_with_accord` loop. -/
def dec_fold (acc v : List Nat) (k : Nat) : Option (List Nat × (Nat → Option Nat)) :=
  (List.range k).foldl (decrypt_with_accord_step acc) (some (v, fun _ => none))


/-! ### Shift cipher lemmas -/

/-- Closed form of `rot_up` on upper-case bytes, for keys already reduced
mod 26 (every call site reduces the key first). -/
theorem rot_up_upper (key x : Nat) (hk : key < 26) (h1 : 65 ≤ x) (h2 : x ≤ 90) :
    rot_up key x = 65 + ((x - 65 + key) % 26) := by
  rw [rot_up]
  by_cases hg : 90 < key + x
  · rw [dif_pos ⟨h1, h2, hg⟩, rot_up, dif_neg (by omega), dif_neg (by omega)]
    omega
  · rw [dif_neg (by omega), dif_neg (by omega)]
    omega

/-- Closed form of `rot_up` on lower-case bytes. -/
theorem rot_up_lower (key x : Nat) (hk : key < 26) (h1 : 97 ≤ x) (h2 : x ≤ 122) :
    rot_up key x = 97 + ((x - 97 + key) % 26) := by
  rw [rot_up]
  by_cases hg : 122 < key + x
  · rw [dif_neg (by omega), dif_pos ⟨h1, h2, hg⟩, rot_up, dif_neg (by omega),
      dif_neg (by omega)]
    omega
  · rw [dif_neg (by omega), dif_neg (by omega)]
    omega

/-- Closed form of `rot_down` on upper-case bytes. -/
theorem rot_down_upper (key x : Nat) (hk : key < 26) (h1 : 65 ≤ x) (h2 : x ≤ 90) :
    rot_down key x = 65 + ((x - 65 + (26 - key)) % 26) := by
  rw [rot_down]
  by_cases hg : x - key < 65
  · rw [dif_pos ⟨h1, h2, hg⟩, rot_down, dif_neg (by omega), dif_neg (by omega)]
    omega
  · rw [dif_neg (by omega), dif_neg (by omega)]
    omega

/-- Closed form of `rot_down` on lower-case bytes. -/
theorem rot_down_lower (key x : Nat) (hk : key < 26) (h1 : 97 ≤ x) (h2 : x ≤ 122) :
    rot_down key x = 97 + ((x - 97 + (26 - key)) % 26) := by
  rw [rot_down]
  by_cases hg : x - key < 97
  · rw [dif_neg (by omega), dif_pos ⟨h1, h2, hg⟩, rot_down, dif_neg (by omega),
      dif_neg (by omega)]
    omega
  · rw [dif_neg (by omega), dif_neg (by omega)]
    omega

/-- Per-buffer round trip of the shift rotation for reduced keys. -/
theorem rot_vec_roundtrip (key : Nat) (hk : key < 26) (l : List Nat) :
    rot_vec_down key (rot_vec_up key l) = l := by
  induction l with
  | nil => rfl
  | cons c t ih =>
    unfold rot_vec_up rot_vec_down at *
    simp only [List.map_cons, List.cons.injEq]
    refine ⟨?_, ih⟩
    by_cases hu : 65 ≤ c ∧ c ≤ 90
    · rw [if_pos (Or.inl hu), rot_up_upper key c hk hu.1 hu.2]
      have hm : (c - 65 + key) % 26 < 26 := Nat.mod_lt _ (by norm_num)
      rw [if_pos (Or.inl ⟨by omega, by omega⟩),
        rot_down_upper key _ hk (by omega) (by omega)]
      omega
    · by_cases hl : 97 ≤ c ∧ c ≤ 122
      · rw [if_pos (Or.inr hl), rot_up_lower key c hk hl.1 hl.2]
        have hm : (c - 97 + key) % 26 < 26 := Nat.mod_lt _ (by norm_num)
        rw [if_pos (Or.inr ⟨by omega, by omega⟩),
          rot_down_lower key _ hk (by omega) (by omega)]
        omega
      · have hno : ¬((65 ≤ c ∧ c ≤ 90) ∨ (97 ≤ c ∧ c ≤ 122)) := by tauto
        simp only [if_neg hno]

/-- C1: For every shift key `k` in `0..255` and every ASCII string `s`,
decrypting with `k` the result of encrypting `s` with `k` returns `s`
exactly, for alphabetic and non-alphabetic text alike. -/
theorem shift_roundtrip (k : Nat) (s : List Nat) (hk : k < 256)
    (hs : ∀ c ∈ s, c < 128) :
    ((Ciphers.ShiftCipher k).encrypt s).bind (Ciphers.ShiftCipher k).decrypt
      = some s := by
  have hlt : k % 26 < 26 := Nat.mod_lt _ (by norm_num)
  simp [Ciphers.encrypt, Ciphers.decrypt, shift_encrypt, shift_decrypt,
    rot_vec_roundtrip (k % 26) hlt s]

/-- Witness for C1 at `k = 15`, `s = "h!"`. -/
theorem shift_roundtrip_witness :
    ((Ciphers.ShiftCipher 15).encrypt [104, 33]).bind
      (Ciphers.ShiftCipher 15).decrypt = some [104, 33] :=
  shift_roundtrip 15 [104, 33] (by norm_num) (by decide)

/-- C7: For every shift key `k` already reduced modulo 26 and every
alphabetic byte `x` with case base `b` (65 = `'A'` or 97 = `'a'`), the
recursive wrap-around rotation `rot_up` used by shift encrypt returns
exactly `b + ((x - b + k) % 26)`, i.e. the recursive definition and the
direct modular formula of the spec agree on every alphabetic byte. -/
theorem rot_up_eq_shift_formula (k x : Nat) (hk : k < 26) :
    (65 ≤ x → x ≤ 90 → rot_up k x = shift_formula k x 65) ∧
    (97 ≤ x → x ≤ 122 → rot_up k x = shift_formula k x 97) := by
  constructor
  · intro h1 h2
    rw [rot_up_upper k x hk h1 h2, shift_formula]
  · intro h1 h2
    rw [rot_up_lower k x hk h1 h2, shift_formula]

/-- Witness for C7 at `k = 15`, `x = 'h' = 104`. -/
theorem rot_up_eq_shift_formula_witness :
    rot_up 15 104 = shift_formula 15 104 97 :=
  (rot_up_eq_shift_formula 15 104 (by norm_num)).2 (by norm_num) (by norm_num)

/-- C8: Shift encryption of `"hello"` with key 15 yields exactly `"wtaad"`,
and shift decryption of `"wtaad"` with key 15 yields exactly `"hello"`
(`"hello"` = `[104, 101, 108, 108, 111]`,
`"wtaad"` = `[119, 116, 97, 97, 100]`). -/
theorem shift_known_vector :
    (Ciphers.ShiftCipher 15).encrypt [104, 101, 108, 108, 111]
        = some [119, 116, 97, 97, 100] ∧
    (Ciphers.ShiftCipher 15).decrypt [119, 116, 97, 97, 100]
        = some [104, 101, 108, 108, 111] := by
  have hk : (15 : Nat) < 26 := by norm_num
  have e1 : rot_up 15 104 = 119 := by
    rw [rot_up_lower 15 104 hk (by norm_num) (by norm_num)]
  have e2 : rot_up 15 101 = 116 := by
    rw [rot_up_lower 15 101 hk (by norm_num) (by norm_num)]
  have e3 : rot_up 15 108 = 97 := by
    rw [rot_up_lower 15 108 hk (by norm_num) (by norm_num)]
  have e4 : rot_up 15 111 = 100 := by
    rw [rot_up_lower 15 111 hk (by norm_num) (by norm_num)]
  have d1 : rot_down 15 119 = 104 := by
    rw [rot_down_lower 15 119 hk (by norm_num) (by norm_num)]
  have d2 : rot_down 15 116 = 101 := by
    rw [rot_down_lower 15 116 hk (by norm_num) (by norm_num)]
  have d3 : rot_down 15 97 = 108 := by
    rw [rot_down_lower 15 97 hk (by norm_num) (by norm_num)]
  have d4 : rot_down 15 100 = 111 := by
    rw [rot_down_lower 15 100 hk (by norm_num) (by norm_num)]
  constructor
  · simp [Ciphers.encrypt, shift_encrypt, rot_vec_up, e1, e2, e3, e4]
  · simp [Ciphers.decrypt, shift_decrypt, rot_vec_down, d1, d2, d3, d4]

/-- C9: Shift encrypt and shift decrypt leave every byte outside
`'A'..='Z'` and `'a'..='z'` unchanged at its original position;
consequently, a string with no alphabetic characters is fixed by both, for
every key. -/
theorem shift_non_alphabetic_invariance (k : Nat) (s : List Nat) :
    (∀ (i c : Nat) (t : List Nat),
      s[i]? = some c → ¬((65 ≤ c ∧ c ≤ 90) ∨ (97 ≤ c ∧ c ≤ 122)) →
      (Ciphers.ShiftCipher k).encrypt s = some t → t[i]? = some c) ∧
    (∀ (i c : Nat) (t : List Nat),
      s[i]? = some c → ¬((65 ≤ c ∧ c ≤ 90) ∨ (97 ≤ c ∧ c ≤ 122)) →
      (Ciphers.ShiftCipher k).decrypt s = some t → t[i]? = some c) ∧
    ((∀ c ∈ s, ¬((65 ≤ c ∧ c ≤ 90) ∨ (97 ≤ c ∧ c ≤ 122))) →
      (Ciphers.ShiftCipher k).encrypt s = some s ∧
      (Ciphers.ShiftCipher k).decrypt s = some s) := by
  refine ⟨?_, ?_, ?_⟩
  · intro i c t hc hno ht
    simp only [Ciphers.encrypt, shift_encrypt, rot_vec_up, Option.some.injEq] at ht
    subst ht
    simp [List.getElem?_map, hc, if_neg hno]
  · intro i c t hc hno ht
    simp only [Ciphers.decrypt, shift_decrypt, rot_vec_down, Option.some.injEq] at ht
    subst ht
    simp [List.getElem?_map, hc, if_neg hno]
  · intro hall
    constructor
    · simp only [Ciphers.encrypt, shift_encrypt, rot_vec_up, Option.some.injEq]
      have h0 : ∀ c ∈ s,
          (if (65 ≤ c ∧ c ≤ 90) ∨ (97 ≤ c ∧ c ≤ 122) then rot_up (k % 26) c else c) = c :=
        fun c hc => if_neg (hall c hc)
      rw [List.map_congr_left h0, List.map_id']
    · simp only [Ciphers.decrypt, shift_decrypt, rot_vec_down, Option.some.injEq]
      have h0 : ∀ c ∈ s,
          (if (65 ≤ c ∧ c ≤ 90) ∨ (97 ≤ c ∧ c ≤ 122) then rot_down (k % 26) c else c) = c :=
        fun c hc => if_neg (hall c hc)
      rw [List.map_congr_left h0, List.map_id']

/-- Witness for C9 at `k = 300`, `s = "!~"` = `[33, 126]`. -/
theorem shift_non_alphabetic_invariance_witness :
    (Ciphers.ShiftCipher 300).encrypt [33, 126] = some [33, 126] ∧
    (Ciphers.ShiftCipher 300).decrypt [33, 126] = some [33, 126] :=
  (shift_non_alphabetic_invariance 300 [33, 126]).2.2 (by decide)

/-! ### Key generator lemmas -/

/-- C4: Calling the transposition key generator with `key_size = 0` fails
fast with the `InvalidKeySize` failure (the `usize` range underflow of
`key_size - 1` in `Uniform::new_inclusive(0, key_size - 1)`), for every
possible stream of random draws: it neither loops forever nor silently
returns an empty sequence. -/
theorem trans_key_gen_zero (draws : List Nat) :
    trans_key_gen 0 draws = some (Except.error KeyGenError.invalidKeySize) := rfl

/-- Invariant of the rejection-sampling loop: starting from a duplicate-free
accumulator of values `< n` whose membership is tracked exactly by `num`,
any returned list has length `n`, is duplicate-free, and all its elements
are `< n`. -/
theorem key_gen_loop_invariant (n : Nat) (hn : 0 < n) (draws : List Nat) :
    ∀ (v : List Nat) (num : Nat → Bool) (w : List Nat),
      v.Nodup → (∀ x ∈ v, x < n) → (∀ j, num j = true ↔ j ∈ v) →
      key_gen_loop n draws v num = some w →
      w.length = n ∧ w.Nodup ∧ ∀ x ∈ w, x < n := by
  induction draws with
  | nil =>
    intro v num w hnd hbd hmem h
    rw [key_gen_loop] at h
    by_cases hv : v.length = n
    · rw [if_pos hv] at h
      cases h
      exact ⟨hv, hnd, hbd⟩
    · rw [if_neg hv] at h
      cases h
  | cons d ds ih =>
    intro v num w hnd hbd hmem h
    rw [key_gen_loop] at h
    by_cases hv : v.length = n
    · rw [if_pos hv] at h
      cases h
      exact ⟨hv, hnd, hbd⟩
    · rw [if_neg hv] at h
      by_cases hseen : num (d % n) = true
      · rw [if_pos hseen] at h
        exact ih v num w hnd hbd hmem h
      · rw [if_neg hseen] at h
        refine ih (v ++ [d % n]) _ w ?_ ?_ ?_ h
        · have hnotmem : d % n ∉ v := fun hc => hseen ((hmem _).mpr hc)
          simp [List.nodup_append, hnd, hnotmem]
        · intro x hx
          rcases List.mem_append.mp hx with hx | hx
          · exact hbd x hx
          · simp at hx
            subst hx
            exact Nat.mod_lt _ hn
        · intro j
          constructor
          · intro hj
            by_cases hjd : j = d % n
            · subst hjd
              simp
            · rw [if_neg hjd] at hj
              exact List.mem_append.mpr (Or.inl ((hmem j).mp hj))
          · intro hj
            rcases List.mem_append.mp hj with hj | hj
            · by_cases hjd : j = d % n
              · simp [hjd]
              · rw [if_neg hjd]
                exact (hmem j).mpr hj
            · simp at hj
              simp [hj]

/-- C5: For every `key_size = n ≥ 1`, whenever the transposition key
generator returns (for whatever stream of random draws), its result is a
sequence of exactly `n` integers containing each integer in `0..n-1`
exactly once. -/
theorem trans_key_gen_permutation (n : Nat) (draws v : List Nat) (hn : 0 < n)
    (h : trans_key_gen n draws = some (Except.ok v)) :
    v.length = n ∧ ∀ k, k < n → v.count k = 1 := by
  unfold trans_key_gen at h
  rw [if_neg (by omega)] at h
  cases hk : key_gen_loop n draws [] (fun _ => false) with
  | none =>
    rw [hk] at h
    simp at h
  | some w =>
    rw [hk] at h
    simp at h
    subst h
    obtain ⟨hlen, hnd, hbd⟩ :=
      key_gen_loop_invariant n hn draws [] (fun _ => false) w (by simp) (by simp)
        (by simp) hk
    refine ⟨hlen, fun k hkn => ?_⟩
    have hsub : w.toFinset ⊆ Finset.range n := by
      intro x hx
      exact Finset.mem_range.mpr (hbd x (List.mem_toFinset.mp hx))
    have hcard : w.toFinset.card = n := by
      rw [List.toFinset_card_of_nodup hnd, hlen]
    have heq : w.toFinset = Finset.range n :=
      Finset.eq_of_subset_of_card_le hsub (by rw [hcard, Finset.card_range])
    have hk' : k ∈ w := by
      rw [← List.mem_toFinset, heq]
      exact Finset.mem_range.mpr hkn
    exact List.count_eq_one_of_mem hnd hk'

/-- Witness for C5 at `n = 2` with the draw stream `[0, 1]`, which makes
the generator return `[0, 1]`. -/
theorem trans_key_gen_permutation_witness :
    ([0, 1] : List Nat).length = 2 ∧ ∀ k, k < 2 → ([0, 1] : List Nat).count k = 1 :=
  trans_key_gen_permutation 2 [0, 1] [0, 1] (by norm_num) rfl

/-! ### Accord step characterization -/

theorem enc_step_none (acc : List Nat) (i : Nat) :
    encrypt_with_accord_step acc none i = none := rfl

theorem enc_step_mem (acc v : List Nat) (num : Nat → Option Nat) (i x : Nat)
    (hi : i < v.length) (hia : i < acc.length)
    (hnum : (if acc[i] = i then some v[i] else num acc[i]) = some x) :
    encrypt_with_accord_step acc (some (v, num)) i =
      some (v.set i x,
        fun j => if j = acc[i] then none else if j = i then some v[i] else num j) := by
  simp only [encrypt_with_accord_step]
  rw [List.getElem?_eq_getElem hi, List.getElem?_eq_getElem hia]
  simp only []
  rw [hnum]

theorem enc_step_get (acc v : List Nat) (num : Nat → Option Nat) (i : Nat)
    (hi : i < v.length) (hia : i < acc.length) (hai : acc[i] < v.length)
    (hnum : (if acc[i] = i then some v[i] else num acc[i]) = none) :
    encrypt_with_accord_step acc (some (v, num)) i =
      some (v.set i (v[acc[i]]), fun j => if j = i then some v[i] else num j) := by
  simp only [encrypt_with_accord_step]
  rw [List.getElem?_eq_getElem hi, List.getElem?_eq_getElem hia]
  simp only []
  rw [hnum, List.getElem?_eq_getElem hai]

theorem dec_step_none (acc : List Nat) (i : Nat) :
    decrypt_with_accord_step acc none i = none := rfl

theorem dec_step_mem (acc v : List Nat) (num : Nat → Option Nat) (i x : Nat)
    (hi : i < acc.length) (hia : acc[i] < acc.length)
    (hva : acc[i] < v.length) (hvi : i < v.length)
    (hnum : (if acc[i] = acc[acc[i]] then some v[acc[i]] else num acc[i]) = some x) :
    decrypt_with_accord_step acc (some (v, num)) i =
      some (v.set acc[i] x,
        fun j => if j = acc[i] then none
          else if j = acc[acc[i]] then some v[acc[i]] else num j) := by
  simp only [decrypt_with_accord_step]
  rw [List.getElem?_eq_getElem hi]
  simp only []
  rw [List.getElem?_eq_getElem hia, List.getElem?_eq_getElem hva,
    List.getElem?_eq_getElem hvi]
  simp only []
  rw [hnum]

theorem dec_step_get (acc v : List Nat) (num : Nat → Option Nat) (i : Nat)
    (hi : i < acc.length) (hia : acc[i] < acc.length)
    (hva : acc[i] < v.length) (hvi : i < v.length)
    (hnum : (if acc[i] = acc[acc[i]] then some v[acc[i]] else num acc[i]) = none) :
    decrypt_with_accord_step acc (some (v, num)) i =
      some (v.set acc[i] (v[i]),
        fun j => if j = acc[acc[i]] then some v[acc[i]] else num j) := by
  simp only [decrypt_with_accord_step]
  rw [List.getElem?_eq_getElem hi]
  simp only []
  rw [List.getElem?_eq_getElem hia, List.getElem?_eq_getElem hva,
    List.getElem?_eq_getElem hvi]
  simp only []
  rw [hnum]

theorem enc_foldl_none (acc : List Nat) (l : List Nat) :
    List.foldl (encrypt_with_accord_step acc) none l = none := by
  induction l with
  | nil => rfl
  | cons i t ih => simpa [enc_step_none] using ih

theorem dec_foldl_none (acc : List Nat) (l : List Nat) :
    List.foldl (decrypt_with_accord_step acc) none l = none := by
  induction l with
  | nil => rfl
  | cons i t ih => simpa [dec_step_none] using ih

theorem enc_step_length (acc v : List Nat) (num : Nat → Option Nat) (i : Nat)
    (p : List Nat × (Nat → Option Nat))
    (h : encrypt_with_accord_step acc (some (v, num)) i = some p) :
    p.1.length = v.length := by
  simp only [encrypt_with_accord_step] at h
  iterate 6 (all_goals (try split at h))
  all_goals cases h
  all_goals simp

theorem dec_step_length (acc v : List Nat) (num : Nat → Option Nat) (i : Nat)
    (p : List Nat × (Nat → Option Nat))
    (h : decrypt_with_accord_step acc (some (v, num)) i = some p) :
    p.1.length = v.length := by
  simp only [decrypt_with_accord_step] at h
  iterate 6 (all_goals (try split at h))
  all_goals cases h
  all_goals simp

theorem enc_fold_succ (acc v : List Nat) (k : Nat) :
    enc_fold acc v (k + 1) = encrypt_with_accord_step acc (enc_fold acc v k) k := by
  unfold enc_fold
  rw [List.range_succ, List.foldl_append]
  rfl

theorem dec_fold_succ (acc v : List Nat) (k : Nat) :
    dec_fold acc v (k + 1) = decrypt_with_accord_step acc (dec_fold acc v k) k := by
  unfold dec_fold
  rw [List.range_succ, List.foldl_append]
  rfl

theorem encrypt_with_accord_eq_fold (acc v : List Nat) :
    encrypt_with_accord acc v = (enc_fold acc v v.length).map Prod.fst := rfl

theorem decrypt_with_accord_eq_fold (acc v : List Nat) :
    decrypt_with_accord acc v = (dec_fold acc v v.length).map Prod.fst := rfl

theorem enc_foldl_length (acc : List Nat) (l : List Nat) :
    ∀ (v : List Nat) (m : Nat → Option Nat) (p : List Nat × (Nat → Option Nat)),
      List.foldl (encrypt_with_accord_step acc) (some (v, m)) l = some p →
      p.1.length = v.length := by
  induction l with
  | nil =>
    intro v m p h
    cases h
    rfl
  | cons i t ih =>
    intro v m p h
    rw [List.foldl_cons] at h
    cases hstep : encrypt_with_accord_step acc (some (v, m)) i with
    | none =>
      rw [hstep, enc_foldl_none] at h
      cases h
    | some q =>
      rw [hstep] at h
      have h1 : q.1.length = v.length := enc_step_length acc v m i q hstep
      have h2 := ih q.1 q.2 p h
      omega

theorem dec_foldl_length (acc : List Nat) (l : List Nat) :
    ∀ (v : List Nat) (m : Nat → Option Nat) (p : List Nat × (Nat → Option Nat)),
      List.foldl (decrypt_with_accord_step acc) (some (v, m)) l = some p →
      p.1.length = v.length := by
  induction l with
  | nil =>
    intro v m p h
    cases h
    rfl
  | cons i t ih =>
    intro v m p h
    rw [List.foldl_cons] at h
    cases hstep : decrypt_with_accord_step acc (some (v, m)) i with
    | none =>
      rw [hstep, dec_foldl_none] at h
      cases h
    | some q =>
      rw [hstep] at h
      have h1 : q.1.length = v.length := dec_step_length acc v m i q hstep
      have h2 := ih q.1 q.2 p h
      omega

/-- When `encrypt_with_accord` returns, it preserves the block length
(every write is an in-place `set`). -/
theorem encrypt_with_accord_length (acc v w : List Nat)
    (h : encrypt_with_accord acc v = some w) : w.length = v.length := by
  rw [encrypt_with_accord_eq_fold] at h
  cases hf : enc_fold acc v v.length with
  | none =>
    rw [hf] at h
    cases h
  | some p =>
    rw [hf] at h
    cases h
    exact enc_foldl_length acc (List.range v.length) v (fun _ => none) p hf

/-- When `decrypt_with_accord` returns, it preserves the block length. -/
theorem decrypt_with_accord_length (acc v w : List Nat)
    (h : decrypt_with_accord acc v = some w) : w.length = v.length := by
  rw [decrypt_with_accord_eq_fold] at h
  cases hf : dec_fold acc v v.length with
  | none =>
    rw [hf] at h
    cases h
  | some p =>
    rw [hf] at h
    cases h
    exact dec_foldl_length acc (List.range v.length) v (fun _ => none) p hf

/-- Loop invariant of the `encrypt_with_accord` loop for duplicate-free
in-bounds keys: after `k` iterations the processed prefix holds the
permuted bytes, the unprocessed suffix is untouched, and the scratch map
holds exactly the displaced original bytes (key `j` is present with value
`v[j]` iff `j` was inserted and not yet consumed by a wrap-around read). -/
theorem enc_fold_inv (acc v : List Nat) (hnd : acc.Nodup)
    (hbd : ∀ a ∈ acc, a < acc.length) (hv : v.length = acc.length) :
    ∀ k, k ≤ acc.length →
      ∃ w m, enc_fold acc v k = some (w, m) ∧
        w.length = v.length ∧
        (∀ j aj, j < k → acc[j]? = some aj → w[j]? = v[aj]?) ∧
        (∀ j, k ≤ j → w[j]? = v[j]?) ∧
        (∀ j, j < k → (∀ i, j ≤ i → i < k → acc[i]? ≠ some j) → m j = v[j]?) ∧
        (∀ j, (k ≤ j ∨ ∃ i, j ≤ i ∧ i < k ∧ acc[i]? = some j) → m j = none) := by
  intro k
  induction k with
  | zero =>
    intro _
    refine ⟨v, fun _ => none, rfl, rfl, ?_, ?_, ?_, ?_⟩
    · intro j aj hj _
      omega
    · intro j _
      rfl
    · intro j hj _
      omega
    · intro j _
      rfl
  | succ k ih =>
    intro hk1
    obtain ⟨w, m, hfold, hwlen, hA, hB, hC, hD⟩ := ih (by omega)
    have hkn : k < acc.length := by omega
    have hkw : k < w.length := by omega
    have hkv : k < v.length := by omega
    have hwk : w[k]? = v[k]? := hB k (le_refl k)
    have hwk' : w[k] = v[k] := by
      rw [List.getElem?_eq_getElem hkw, List.getElem?_eq_getElem hkv] at hwk
      exact Option.some.inj hwk
    have hakn : acc[k] < acc.length := hbd _ (List.getElem_mem hkn)
    have hakv : acc[k] < v.length := by omega
    have hakw : acc[k] < w.length := by omega
    have hacck : acc[k]? = some (acc[k]) := List.getElem?_eq_getElem hkn
    rw [enc_fold_succ, hfold]
    by_cases hle : acc[k] ≤ k
    · -- the scratch map contains key `acc[k]`: write its value and remove it
      have hscrut : (if acc[k] = k then some w[k] else m acc[k]) = some (v[acc[k]]) := by
        by_cases heq : acc[k] = k
        · rw [if_pos heq, hwk']
          have h9 : v[acc[k]]? = v[k]? := by rw [heq]
          rw [List.getElem?_eq_getElem hakv, List.getElem?_eq_getElem hkv] at h9
          rw [h9]
        · rw [if_neg heq]
          have hm : m acc[k] = v[acc[k]]? := by
            apply hC (acc[k]) (by omega)
            intro i h1 h2 hcontra
            have : i = k := List.getElem?_inj (by omega) hnd (by rw [hcontra, hacck])
            omega
          rw [hm, List.getElem?_eq_getElem hakv]
      rw [enc_step_mem acc w m k (v[acc[k]]) hkw hkn hscrut]
      refine ⟨_, _, rfl, by simp [hwlen], ?_, ?_, ?_, ?_⟩
      · intro j aj hj haj
        by_cases hjk : j = k
        · subst hjk
          rw [hacck] at haj
          cases haj
          rw [List.getElem?_set_self (by omega), List.getElem?_eq_getElem hakv]
        · rw [List.getElem?_set_ne (fun hh => hjk hh.symm)]
          exact hA j aj (by omega) haj
      · intro j hj
        rw [List.getElem?_set_ne (by omega)]
        exact hB j (by omega)
      · intro j hj hno
        have hjak : j ≠ acc[k] := by
          intro hh
          exact hno k (by omega) (by omega) (by rw [hacck, hh])
        by_cases hjk : j = k
        · subst hjk
          simp only [if_neg hjak, if_pos rfl]
          rw [hwk']
          exact (List.getElem?_eq_getElem hkv).symm
        · simp only [if_neg hjak, if_neg hjk]
          exact hC j (by omega) (fun i h1 h2 => hno i h1 (by omega))
      · intro j hj
        rcases hj with hj | ⟨i, hji, hik, hacci⟩
        · have hjak : j ≠ acc[k] := by omega
          have hjk : j ≠ k := by omega
          simp only [if_neg hjak, if_neg hjk]
          exact hD j (Or.inl (by omega))
        · by_cases hik' : i = k
          · rw [hik', hacck] at hacci
            have hj9 : j = acc[k] := (Option.some.inj hacci).symm
            simp [hj9]
          · have hik2 : i < k := by omega
            by_cases hjak : j = acc[k]
            · simp [hjak]
            · have hjk : j ≠ k := by omega
              simp only [if_neg hjak, if_neg hjk]
              exact hD j (Or.inr ⟨i, hji, hik2, hacci⟩)
    · -- the scratch map does not contain `acc[k]`: read the untouched byte
      have hscrut : (if acc[k] = k then some w[k] else m acc[k]) = none := by
        rw [if_neg (by omega)]
        exact hD (acc[k]) (Or.inl (by omega))
      rw [enc_step_get acc w m k hkw hkn hakw hscrut]
      have hwak : w[acc[k]] = v[acc[k]] := by
        have h1 := hB (acc[k]) (by omega)
        rw [List.getElem?_eq_getElem hakw, List.getElem?_eq_getElem hakv] at h1
        exact Option.some.inj h1
      refine ⟨_, _, rfl, by simp [hwlen], ?_, ?_, ?_, ?_⟩
      · intro j aj hj haj
        by_cases hjk : j = k
        · subst hjk
          rw [hacck] at haj
          cases haj
          rw [List.getElem?_set_self (by omega), hwak, List.getElem?_eq_getElem hakv]
        · rw [List.getElem?_set_ne (fun hh => hjk hh.symm)]
          exact hA j aj (by omega) haj
      · intro j hj
        rw [List.getElem?_set_ne (by omega)]
        exact hB j (by omega)
      · intro j hj hno
        by_cases hjk : j = k
        · subst hjk
          simp only [if_pos rfl]
          rw [hwk']
          exact (List.getElem?_eq_getElem hkv).symm
        · simp only [if_neg hjk]
          exact hC j (by omega) (fun i h1 h2 => hno i h1 (by omega))
      · intro j hj
        rcases hj with hj | ⟨i, hji, hik, hacci⟩
        · have hjk : j ≠ k := by omega
          simp only [if_neg hjk]
          exact hD j (Or.inl (by omega))
        · by_cases hik' : i = k
          · rw [hik', hacck] at hacci
            have hj9 : j = acc[k] := (Option.some.inj hacci).symm
            have hjk : j ≠ k := by omega
            simp only [if_neg hjk]
            exact hD j (Or.inl (by omega))
          · have hik2 : i < k := by omega
            have hjk : j ≠ k := by omega
            simp only [if_neg hjk]
            exact hD j (Or.inr ⟨i, hji, hik2, hacci⟩)

/-- For a duplicate-free in-bounds key, `encrypt_with_accord` succeeds and
applies the position mapping: output byte `j` is input byte `acc[j]`. -/
theorem encrypt_with_accord_perm_spec (acc v : List Nat) (hnd : acc.Nodup)
    (hbd : ∀ a ∈ acc, a < acc.length) (hv : v.length = acc.length) :
    ∃ w, encrypt_with_accord acc v = some w ∧ w.length = v.length ∧
      ∀ (j aj : Nat), acc[j]? = some aj → w[j]? = v[aj]? := by
  obtain ⟨w, m, hfold, hwlen, hA, hB, hC, hD⟩ :=
    enc_fold_inv acc v hnd hbd hv v.length (by omega)
  refine ⟨w, ?_, hwlen, ?_⟩
  · rw [encrypt_with_accord_eq_fold, hfold]
    rfl
  · intro j aj haj
    have hj : j < acc.length := by
      rcases List.getElem?_eq_some_iff.mp haj with ⟨h, _⟩
      exact h
    exact hA j aj (by omega) haj

/-- Loop invariant of the `decrypt_with_accord` loop for duplicate-free
in-bounds keys: after `k` iterations, position `acc[j]` holds the original
byte `v[j]` for every processed `j`, every position not of that form is
untouched, and the scratch map holds exactly the inserted-but-unconsumed
displaced bytes (key `acc[acc[j]]`, value `v[acc[j]]`). -/
theorem dec_fold_inv (acc v : List Nat) (hnd : acc.Nodup)
    (hbd : ∀ a ∈ acc, a < acc.length) (hv : v.length = acc.length) :
    ∀ k, k ≤ acc.length →
      ∃ w m, dec_fold acc v k = some (w, m) ∧
        w.length = v.length ∧
        (∀ j aj, j < k → acc[j]? = some aj → w[aj]? = v[j]?) ∧
        (∀ p, (∀ i, i < k → acc[i]? ≠ some p) → w[p]? = v[p]?) ∧
        (∀ j aj aaj, j < k → acc[j]? = some aj → acc[aj]? = some aaj →
          (k ≤ aj ∨ aj < j) → m aaj = v[aj]?) ∧
        (∀ K, (∀ j aj aaj, j < k → acc[j]? = some aj → acc[aj]? = some aaj →
          aaj ≠ K) → m K = none) ∧
        (∀ j aj aaj, j < k → acc[j]? = some aj → acc[aj]? = some aaj →
          j ≤ aj → aj < k → m aaj = none) := by
  intro k
  induction k with
  | zero =>
    intro _
    refine ⟨v, fun _ => none, rfl, rfl, ?_, ?_, ?_, ?_, ?_⟩
    · intro j aj hj _
      omega
    · intro p _
      rfl
    · intro j aj aaj hj _ _ _
      omega
    · intro K _
      rfl
    · intro j aj aaj hj _ _ _ _
      omega
  | succ k ih =>
    intro hk1
    obtain ⟨w, m, hfold, hwlen, hA, hB, hC, hD, hE⟩ := ih (by omega)
    have hkn : k < acc.length := by omega
    have hkw : k < w.length := by omega
    have hkv : k < v.length := by omega
    have hakn : acc[k] < acc.length := hbd _ (List.getElem_mem hkn)
    have hakv : acc[k] < v.length := by omega
    have hakw : acc[k] < w.length := by omega
    have hacck : acc[k]? = some (acc[k]) := List.getElem?_eq_getElem hkn
    have haccak : acc[acc[k]]? = some (acc[acc[k]]) := List.getElem?_eq_getElem hakn
    -- position acc[k] was not written in the first k iterations
    have hwak : w[acc[k]]? = v[acc[k]]? := by
      apply hB
      intro i hik hcon
      have : i = k := List.getElem?_inj (by omega) hnd (by rw [hcon, hacck])
      omega
    have hwak' : w[acc[k]] = v[acc[k]] := by
      rw [List.getElem?_eq_getElem hakw, List.getElem?_eq_getElem hakv] at hwak
      exact Option.some.inj hwak
    rw [dec_fold_succ, hfold]
    by_cases hj0 : ∃ j0, j0 < k ∧ acc[j0]? = some k
    · -- index k occurs in the processed prefix of acc: the map holds v[k]
      obtain ⟨j0, hj0k, hj0acc⟩ := hj0
      have hne : acc[k] ≠ acc[acc[k]] := by
        intro heq
        have h1 : acc[k] = k := by
          apply List.getElem?_inj (by omega) hnd
          rw [haccak, hacck]
          exact congrArg some heq.symm
        have h2 : j0 = k :=
          List.getElem?_inj (by omega) hnd (by rw [hj0acc, hacck, h1])
        omega
      have hmak : m (acc[k]) = v[k]? := by
        apply hC j0 k (acc[k]) hj0k hj0acc hacck
        omega
      have hscrut : (if acc[k] = acc[acc[k]] then some w[acc[k]] else m acc[k])
          = some (v[k]) := by
        rw [if_neg hne, hmak, List.getElem?_eq_getElem hkv]
      rw [dec_step_mem acc w m k (v[k]) hkn hakn hakw hkw hscrut]
      refine ⟨w.set (acc[k]) (v[k]),
        fun K => if K = acc[k] then none
          else if K = acc[acc[k]] then some w[acc[k]] else m K,
        rfl, by simp [hwlen], ?_, ?_, ?_, ?_, ?_⟩
      · -- clause A
        intro j aj hjlt haj
        by_cases hjk : j = k
        · rw [hjk] at haj
          rw [hjk]
          have haj' : aj = acc[k] := Option.some.inj (haj.symm.trans hacck)
          subst haj'
          rw [List.getElem?_set_self (by omega), List.getElem?_eq_getElem hkv]
        · have hne2 : acc[k] ≠ aj := by
            intro heq
            have : j = k := List.getElem?_inj (by omega) hnd (by rw [haj, hacck, heq])
            omega
          rw [List.getElem?_set_ne hne2]
          exact hA j aj (by omega) haj
      · -- clause B
        intro p hp
        have hpak : acc[k] ≠ p := by
          intro heq
          exact hp k (by omega) (by rw [hacck, heq])
        rw [List.getElem?_set_ne hpak]
        exact hB p (fun i hik => hp i (by omega))
      · -- clause C
        intro j aj aaj hjlt haj haaj hcond
        have hajn : aj < acc.length := by
          rcases List.getElem?_eq_some_iff.mp haaj with ⟨h5, _⟩
          exact h5
        by_cases hjk : j = k
        · rw [hjk] at haj hcond
          have haj' : aj = acc[k] := Option.some.inj (haj.symm.trans hacck)
          subst haj'
          have haaj' : aaj = acc[acc[k]] := Option.some.inj (haaj.symm.trans haccak)
          subst haaj'
          simp only []
          rw [if_neg (Ne.symm hne)]
          simp only [if_true]
          rw [hwak', List.getElem?_eq_getElem hakv]
        · have haajne : aaj ≠ acc[acc[k]] := by
            intro heq
            have h1 : aj = acc[k] :=
              List.getElem?_inj (by omega) hnd (by rw [haaj, haccak, heq])
            have h2 : j = k :=
              List.getElem?_inj (by omega) hnd (by rw [haj, hacck, h1])
            omega
          have haajnak : aaj ≠ acc[k] := by
            intro heq
            have h1 : aj = k :=
              List.getElem?_inj (by omega) hnd (by rw [haaj, hacck, heq])
            rcases hcond with hc | hc
            · omega
            · omega
          simp only []
          rw [if_neg haajnak, if_neg haajne]
          apply hC j aj aaj (by omega) haj haaj
          rcases hcond with hc | hc
          · exact Or.inl (by omega)
          · exact Or.inr hc
      · -- clause D
        intro K hK
        have hKne : acc[acc[k]] ≠ K :=
          hK k (acc[k]) (acc[acc[k]]) (by omega) hacck haccak
        by_cases hKak : K = acc[k]
        · simp only []
          rw [if_pos hKak]
        · simp only []
          rw [if_neg hKak, if_neg (Ne.symm hKne)]
          exact hD K (fun j aj aaj hjlt haj haaj => hK j aj aaj (by omega) haj haaj)
      · -- clause E
        intro j aj aaj hjlt haj haaj hjaj hajlt
        have hajn : aj < acc.length := by
          rcases List.getElem?_eq_some_iff.mp haaj with ⟨h5, _⟩
          exact h5
        by_cases hjk : j = k
        · rw [hjk] at haj hjaj
          have haj' : aj = acc[k] := Option.some.inj (haj.symm.trans hacck)
          -- k ≤ aj = acc[k] < k + 1 forces acc[k] = k, impossible here
          have hakk : acc[k] = k := by omega
          have h2 : j0 = k :=
            List.getElem?_inj (by omega) hnd (by rw [hj0acc, hacck, hakk])
          omega
        · by_cases hajk : aj = k
          · rw [hajk] at haaj
            have haaj' : aaj = acc[k] := Option.some.inj (haaj.symm.trans hacck)
            simp only []
            rw [if_pos haaj']
          · have haajnak : aaj ≠ acc[k] := by
              intro heq
              have h1 : aj = k :=
                List.getElem?_inj (by omega) hnd (by rw [haaj, hacck, heq])
              omega
            have haajne : aaj ≠ acc[acc[k]] := by
              intro heq
              have h1 : aj = acc[k] :=
                List.getElem?_inj (by omega) hnd (by rw [haaj, haccak, heq])
              have h2 : j = k :=
                List.getElem?_inj (by omega) hnd (by rw [haj, hacck, h1])
              omega
            simp only []
            rw [if_neg haajnak, if_neg haajne]
            exact hE j aj aaj (by omega) haj haaj hjaj (by omega)
    · -- index k does not occur in the processed prefix: position k untouched
      have hwkk : w[k]? = v[k]? := by
        apply hB
        intro i hik hcon
        exact hj0 ⟨i, hik, hcon⟩
      have hwkk' : w[k] = v[k] := by
        rw [List.getElem?_eq_getElem hkw, List.getElem?_eq_getElem hkv] at hwkk
        exact Option.some.inj hwkk
      by_cases heq : acc[k] = acc[acc[k]]
      · -- the just-inserted key is read back; by injectivity acc[k] = k
        have hakk : acc[k] = k := by
          apply List.getElem?_inj (by omega) hnd
          rw [haccak, hacck]
          exact congrArg some heq.symm
        have hscrut : (if acc[k] = acc[acc[k]] then some w[acc[k]] else m acc[k])
            = some (v[k]) := by
          rw [if_pos heq]
          have h9 : w[acc[k]]? = w[k]? := by rw [hakk]
          rw [List.getElem?_eq_getElem hakw, List.getElem?_eq_getElem hkw] at h9
          rw [h9, hwkk']
        rw [dec_step_mem acc w m k (v[k]) hkn hakn hakw hkw hscrut]
        refine ⟨w.set (acc[k]) (v[k]),
          fun K => if K = acc[k] then none
            else if K = acc[acc[k]] then some w[acc[k]] else m K,
          rfl, by simp [hwlen], ?_, ?_, ?_, ?_, ?_⟩
        · intro j aj hjlt haj
          by_cases hjk : j = k
          · rw [hjk] at haj
            rw [hjk]
            have haj' : aj = acc[k] := Option.some.inj (haj.symm.trans hacck)
            subst haj'
            rw [List.getElem?_set_self (by omega), List.getElem?_eq_getElem hkv]
          · have hne2 : acc[k] ≠ aj := by
              intro heq2
              have : j = k :=
                List.getElem?_inj (by omega) hnd (by rw [haj, hacck, heq2])
              omega
            rw [List.getElem?_set_ne hne2]
            exact hA j aj (by omega) haj
        · intro p hp
          have hpak : acc[k] ≠ p := by
            intro heq2
            exact hp k (by omega) (by rw [hacck, heq2])
          rw [List.getElem?_set_ne hpak]
          exact hB p (fun i hik => hp i (by omega))
        · intro j aj aaj hjlt haj haaj hcond
          have hajn : aj < acc.length := by
            rcases List.getElem?_eq_some_iff.mp haaj with ⟨h5, _⟩
            exact h5
          by_cases hjk : j = k
          · rw [hjk] at haj hcond
            have haj' : aj = acc[k] := Option.some.inj (haj.symm.trans hacck)
            rcases hcond with hc | hc
            · omega
            · omega
          · have haajne : aaj ≠ acc[acc[k]] := by
              intro heq2
              have h1 : aj = acc[k] :=
                List.getElem?_inj (by omega) hnd (by rw [haaj, haccak, heq2])
              have h2 : j = k :=
                List.getElem?_inj (by omega) hnd (by rw [haj, hacck, h1])
              omega
            have haajnak : aaj ≠ acc[k] := by
              intro heq2
              have h1 : aj = k :=
                List.getElem?_inj (by omega) hnd (by rw [haaj, hacck, heq2])
              rcases hcond with hc | hc
              · omega
              · omega
            simp only []
            rw [if_neg haajnak, if_neg haajne]
            apply hC j aj aaj (by omega) haj haaj
            rcases hcond with hc | hc
            · exact Or.inl (by omega)
            · exact Or.inr hc
        · intro K hK
          have hKne : acc[acc[k]] ≠ K :=
            hK k (acc[k]) (acc[acc[k]]) (by omega) hacck haccak
          by_cases hKak : K = acc[k]
          · simp only []
            rw [if_pos hKak]
          · simp only []
            rw [if_neg hKak, if_neg (Ne.symm hKne)]
            exact hD K (fun j aj aaj hjlt haj haaj => hK j aj aaj (by omega) haj haaj)
        · intro j aj aaj hjlt haj haaj hjaj hajlt
          have hajn : aj < acc.length := by
            rcases List.getElem?_eq_some_iff.mp haaj with ⟨h5, _⟩
            exact h5
          by_cases hjk : j = k
          · rw [hjk] at haj
            have haj' : aj = acc[k] := Option.some.inj (haj.symm.trans hacck)
            subst haj'
            have haaj' : aaj = acc[acc[k]] := Option.some.inj (haaj.symm.trans haccak)
            subst haaj'
            simp only []
            rw [if_pos heq.symm]
          · by_cases hajk : aj = k
            · rw [hajk] at haj
              exact absurd ⟨j, by omega, haj⟩ hj0
            · have haajnak : aaj ≠ acc[k] := by
                intro heq2
                have h1 : aj = k :=
                  List.getElem?_inj (by omega) hnd (by rw [haaj, hacck, heq2])
                omega
              have haajne : aaj ≠ acc[acc[k]] := by
                intro heq2
                have h1 : aj = acc[k] :=
                  List.getElem?_inj (by omega) hnd (by rw [haaj, haccak, heq2])
                have h2 : j = k :=
                  List.getElem?_inj (by omega) hnd (by rw [haj, hacck, h1])
                omega
              simp only []
              rw [if_neg haajnak, if_neg haajne]
              exact hE j aj aaj (by omega) haj haaj hjaj (by omega)
      · -- the map does not contain key acc[k]: the untouched byte v[k] moves
        have hscrut : (if acc[k] = acc[acc[k]] then some w[acc[k]] else m acc[k])
            = none := by
          rw [if_neg heq]
          apply hD
          intro j aj aaj hjlt haj haaj hcontra
          have hajn : aj < acc.length := by
            rcases List.getElem?_eq_some_iff.mp haaj with ⟨h5, _⟩
            exact h5
          have h1 : aj = k :=
            List.getElem?_inj (by omega) hnd (by rw [haaj, hacck, hcontra])
          rw [h1] at haj
          exact hj0 ⟨j, hjlt, haj⟩
        rw [dec_step_get acc w m k hkn hakn hakw hkw hscrut]
        refine ⟨w.set (acc[k]) (w[k]),
          fun K => if K = acc[acc[k]] then some w[acc[k]] else m K,
          rfl, by simp [hwlen], ?_, ?_, ?_, ?_, ?_⟩
        · intro j aj hjlt haj
          by_cases hjk : j = k
          · rw [hjk] at haj
            rw [hjk]
            have haj' : aj = acc[k] := Option.some.inj (haj.symm.trans hacck)
            subst haj'
            rw [List.getElem?_set_self (by omega), hwkk', List.getElem?_eq_getElem hkv]
          · have hne2 : acc[k] ≠ aj := by
              intro heq2
              have : j = k :=
                List.getElem?_inj (by omega) hnd (by rw [haj, hacck, heq2])
              omega
            rw [List.getElem?_set_ne hne2]
            exact hA j aj (by omega) haj
        · intro p hp
          have hpak : acc[k] ≠ p := by
            intro heq2
            exact hp k (by omega) (by rw [hacck, heq2])
          rw [List.getElem?_set_ne hpak]
          exact hB p (fun i hik => hp i (by omega))
        · intro j aj aaj hjlt haj haaj hcond
          have hajn : aj < acc.length := by
            rcases List.getElem?_eq_some_iff.mp haaj with ⟨h5, _⟩
            exact h5
          by_cases hjk : j = k
          · rw [hjk] at haj
            have haj' : aj = acc[k] := Option.some.inj (haj.symm.trans hacck)
            subst haj'
            have haaj' : aaj = acc[acc[k]] := Option.some.inj (haaj.symm.trans haccak)
            subst haaj'
            simp only []
            simp only [if_true]
            rw [hwak', List.getElem?_eq_getElem hakv]
          · have haajne : aaj ≠ acc[acc[k]] := by
              intro heq2
              have h1 : aj = acc[k] :=
                List.getElem?_inj (by omega) hnd (by rw [haaj, haccak, heq2])
              have h2 : j = k :=
                List.getElem?_inj (by omega) hnd (by rw [haj, hacck, h1])
              omega
            simp only []
            rw [if_neg haajne]
            apply hC j aj aaj (by omega) haj haaj
            rcases hcond with hc | hc
            · exact Or.inl (by omega)
            · exact Or.inr hc
        · intro K hK
          have hKne : acc[acc[k]] ≠ K :=
            hK k (acc[k]) (acc[acc[k]]) (by omega) hacck haccak
          simp only []
          rw [if_neg (Ne.symm hKne)]
          exact hD K (fun j aj aaj hjlt haj haaj => hK j aj aaj (by omega) haj haaj)
        · intro j aj aaj hjlt haj haaj hjaj hajlt
          have hajn : aj < acc.length := by
            rcases List.getElem?_eq_some_iff.mp haaj with ⟨h5, _⟩
            exact h5
          by_cases hjk : j = k
          · rw [hjk] at haj hjaj
            have haj' : aj = acc[k] := Option.some.inj (haj.symm.trans hacck)
            have hakk : acc[k] = k := by omega
            have h3 : acc[acc[k]] = acc[k] := by
              have h4 : acc[acc[k]]? = acc[k]? := by rw [hakk]
              rw [haccak, hacck] at h4
              exact Option.some.inj h4
            exact absurd h3.symm heq
          · by_cases hajk : aj = k
            · rw [hajk] at haj
              exact absurd ⟨j, by omega, haj⟩ hj0
            · have haajne : aaj ≠ acc[acc[k]] := by
                intro heq2
                have h1 : aj = acc[k] :=
                  List.getElem?_inj (by omega) hnd (by rw [haaj, haccak, heq2])
                have h2 : j = k :=
                  List.getElem?_inj (by omega) hnd (by rw [haj, hacck, h1])
                omega
              simp only []
              rw [if_neg haajne]
              exact hE j aj aaj (by omega) haj haaj hjaj (by omega)

/-- For a duplicate-free in-bounds key, `decrypt_with_accord` succeeds and
applies the inverse position mapping: output byte `acc[j]` is input byte
`j`. -/
theorem decrypt_with_accord_perm_spec (acc v : List Nat) (hnd : acc.Nodup)
    (hbd : ∀ a ∈ acc, a < acc.length) (hv : v.length = acc.length) :
    ∃ w, decrypt_with_accord acc v = some w ∧ w.length = v.length ∧
      ∀ (j aj : Nat), acc[j]? = some aj → w[aj]? = v[j]? := by
  obtain ⟨w, m, hfold, hwlen, hA, hB, hC, hD, hE⟩ :=
    dec_fold_inv acc v hnd hbd hv v.length (by omega)
  refine ⟨w, ?_, hwlen, ?_⟩
  · rw [decrypt_with_accord_eq_fold, hfold]
    rfl
  · intro j aj haj
    have hj : j < acc.length := by
      rcases List.getElem?_eq_some_iff.mp haj with ⟨h, _⟩
      exact h
    exact hA j aj (by omega) haj

/-- Round trip of the accord routines on one block, for a duplicate-free,
in-bounds, surjective (hence permutation) key. -/
theorem accord_roundtrip (acc u : List Nat) (hnd : acc.Nodup)
    (hbd : ∀ a ∈ acc, a < acc.length)
    (hsurj : ∀ p, p < acc.length → p ∈ acc)
    (hu : u.length = acc.length) :
    ∃ b, encrypt_with_accord acc u = some b ∧ b.length = u.length ∧
      decrypt_with_accord acc b = some u := by
  obtain ⟨b, henc, hblen, hbspec⟩ := encrypt_with_accord_perm_spec acc u hnd hbd hu
  obtain ⟨c, hdec, hclen, hcspec⟩ :=
    decrypt_with_accord_perm_spec acc b hnd hbd (by omega)
  refine ⟨b, henc, hblen, ?_⟩
  rw [hdec]
  congr 1
  apply List.ext_getElem?
  intro p
  by_cases hp : p < acc.length
  · obtain ⟨j, hj⟩ := List.mem_iff_getElem?.mp (hsurj p hp)
    rw [hcspec j p hj, hbspec j p hj]
  · rw [List.getElem?_eq_none (by omega), List.getElem?_eq_none (by omega)]

/-- The `encrypt_with_accord` loop never fails when every key entry is
within the block (no duplicate-freeness needed). -/
theorem enc_fold_some (acc u : List Nat) (hu : u.length = acc.length)
    (hbd : ∀ a ∈ acc, a < acc.length) :
    ∀ k, k ≤ acc.length →
      ∃ w m, enc_fold acc u k = some (w, m) ∧ w.length = u.length := by
  intro k
  induction k with
  | zero =>
    intro _
    exact ⟨u, fun _ => none, rfl, rfl⟩
  | succ k ih =>
    intro hk1
    obtain ⟨w, m, hfold, hwlen⟩ := ih (by omega)
    have hkn : k < acc.length := by omega
    have hkw : k < w.length := by omega
    have hakn : acc[k] < acc.length := hbd _ (List.getElem_mem hkn)
    have hakw : acc[k] < w.length := by omega
    rw [enc_fold_succ, hfold]
    cases hsc : (if acc[k] = k then some w[k] else m acc[k]) with
    | some x =>
      rw [enc_step_mem acc w m k x hkw hkn hsc]
      exact ⟨_, _, rfl, by simp [hwlen]⟩
    | none =>
      rw [enc_step_get acc w m k hkw hkn hakw hsc]
      exact ⟨_, _, rfl, by simp [hwlen]⟩

/-- The `decrypt_with_accord` loop never fails when every key entry is
within the block. -/
theorem dec_fold_some (acc u : List Nat) (hu : u.length = acc.length)
    (hbd : ∀ a ∈ acc, a < acc.length) :
    ∀ k, k ≤ acc.length →
      ∃ w m, dec_fold acc u k = some (w, m) ∧ w.length = u.length := by
  intro k
  induction k with
  | zero =>
    intro _
    exact ⟨u, fun _ => none, rfl, rfl⟩
  | succ k ih =>
    intro hk1
    obtain ⟨w, m, hfold, hwlen⟩ := ih (by omega)
    have hkn : k < acc.length := by omega
    have hkw : k < w.length := by omega
    have hakn : acc[k] < acc.length := hbd _ (List.getElem_mem hkn)
    have hakw : acc[k] < w.length := by omega
    rw [dec_fold_succ, hfold]
    cases hsc : (if acc[k] = acc[acc[k]] then some w[acc[k]] else m acc[k]) with
    | some x =>
      rw [dec_step_mem acc w m k x hkn hakn hakw hkw hsc]
      exact ⟨_, _, rfl, by simp [hwlen]⟩
    | none =>
      rw [dec_step_get acc w m k hkn hakn hakw hkw hsc]
      exact ⟨_, _, rfl, by simp [hwlen]⟩

/-- `encrypt_with_accord` succeeds on any block of the key's length when
every key entry is in bounds. -/
theorem encrypt_with_accord_some (acc u : List Nat) (hu : u.length = acc.length)
    (hbd : ∀ a ∈ acc, a < acc.length) :
    ∃ b, encrypt_with_accord acc u = some b ∧ b.length = u.length := by
  obtain ⟨w, m, hfold, hwlen⟩ := enc_fold_some acc u hu hbd u.length (by omega)
  refine ⟨w, ?_, hwlen⟩
  rw [encrypt_with_accord_eq_fold, hfold]
  rfl

/-- `decrypt_with_accord` succeeds on any block of the key's length when
every key entry is in bounds. -/
theorem decrypt_with_accord_some (acc u : List Nat) (hu : u.length = acc.length)
    (hbd : ∀ a ∈ acc, a < acc.length) :
    ∃ b, decrypt_with_accord acc u = some b ∧ b.length = u.length := by
  obtain ⟨w, m, hfold, hwlen⟩ := dec_fold_some acc u hu hbd u.length (by omega)
  refine ⟨w, ?_, hwlen⟩
  rw [decrypt_with_accord_eq_fold, hfold]
  rfl

/-- If the buffer is no longer than one block, the loop body never runs
(`i + key_size < len` fails at `i = 0`) and the buffer is returned as is. -/
theorem trans_loop_of_le (f : List Nat → Option (List Nat)) (n fuel : Nat)
    (v : List Nat) (h : v.length ≤ n) : trans_loop f n fuel v = some v := by
  cases fuel with
  | zero =>
    rw [trans_loop, if_neg (by omega)]
  | succ fuel =>
    rw [trans_loop, if_neg (by omega)]

/-- The block loop preserves the buffer length whenever it returns,
provided the per-block routine does. -/
theorem trans_loop_length (f : List Nat → Option (List Nat)) (n : Nat)
    (hf : ∀ u b, f u = some b → b.length = u.length) :
    ∀ (fuel : Nat) (v w : List Nat),
      trans_loop f n fuel v = some w → w.length = v.length := by
  intro fuel
  induction fuel with
  | zero =>
    intro v w h
    rw [trans_loop] at h
    by_cases hlt : n < v.length
    · rw [if_pos hlt] at h
      cases h
    · rw [if_neg hlt] at h
      cases h
      rfl
  | succ fuel ih =>
    intro v w h
    rw [trans_loop] at h
    by_cases hlt : n < v.length
    · rw [if_pos hlt] at h
      by_cases hn0 : n = 0
      · rw [if_pos hn0] at h
        cases h
      · rw [if_neg hn0] at h
        cases hb : f (v.take n) with
        | none =>
          rw [hb] at h
          cases h
        | some b =>
          rw [hb] at h
          cases hw : trans_loop f n fuel (v.drop n) with
          | none =>
            rw [hw] at h
            cases h
          | some w' =>
            rw [hw] at h
            simp only [Option.map_some'] at h
            cases h
            have hblen : b.length = (v.take n).length := hf (v.take n) b hb
            have hwlen : w'.length = (v.drop n).length := ih (v.drop n) w' hw
            rw [List.length_take] at hblen
            rw [List.length_drop] at hwlen
            simp only [List.length_append]
            omega
    · rw [if_neg hlt] at h
      cases h
      rfl

/-- The fuel parameter of `trans_loop` is irrelevant as long as it is at
least the buffer length (so the loop cannot run out of it). -/
theorem trans_loop_fuel_irrel (f : List Nat → Option (List Nat)) (n : Nat)
    (hn : 0 < n) :
    ∀ (L : Nat) (v : List Nat), v.length ≤ L →
      ∀ f1 f2, v.length ≤ f1 → v.length ≤ f2 →
        trans_loop f n f1 v = trans_loop f n f2 v := by
  intro L
  induction L with
  | zero =>
    intro v hv f1 f2 h1 h2
    rw [trans_loop_of_le f n f1 v (by omega), trans_loop_of_le f n f2 v (by omega)]
  | succ L ihL =>
    intro v hv f1 f2 h1 h2
    by_cases hlt : n < v.length
    · cases f1 with
      | zero => omega
      | succ f1' =>
        cases f2 with
        | zero => omega
        | succ f2' =>
          rw [trans_loop, trans_loop, if_pos hlt, if_pos hlt,
            if_neg (by omega), if_neg (by omega)]
          cases hb : f (v.take n) with
          | none => rfl
          | some b =>
            have hdl : (v.drop n).length = v.length - n := List.length_drop n v
            rw [ihL (v.drop n) (by omega) f1' f2' (by omega) (by omega)]
    · rw [trans_loop_of_le f n f1 v (by omega), trans_loop_of_le f n f2 v (by omega)]

/-- The block loop never fails when the per-block routine always succeeds
on blocks of size `n` (and `n ≥ 1`). -/
theorem trans_loop_some (f : List Nat → Option (List Nat)) (n : Nat)
    (hn : 0 < n) (hf : ∀ u, u.length = n → ∃ b, f u = some b) :
    ∀ (fuel : Nat) (v : List Nat), v.length ≤ fuel →
      ∃ w, trans_loop f n fuel v = some w := by
  intro fuel
  induction fuel with
  | zero =>
    intro v hv
    rw [trans_loop, if_neg (by omega)]
    exact ⟨v, rfl⟩
  | succ fuel ih =>
    intro v hv
    by_cases hlt : n < v.length
    · have htake : (v.take n).length = n := by
        rw [List.length_take]
        omega
      obtain ⟨b, hb⟩ := hf (v.take n) htake
      have hdl : (v.drop n).length = v.length - n := List.length_drop n v
      obtain ⟨w, hw⟩ := ih (v.drop n) (by omega)
      rw [trans_loop, if_pos hlt, if_neg (by omega), hb, hw]
      exact ⟨b ++ w, rfl⟩
    · rw [trans_loop, if_neg hlt]
      exact ⟨v, rfl⟩

/-- The strict `<` bound of the block loop leaves the tail from the first
unprocessed block start onwards untouched.  For `n ≥ 1` and a nonempty
buffer the three arithmetic constraints pin `i` uniquely: it is the
largest multiple of `n` strictly below the length, i.e. exactly the start
of the final aligned block (when `n` divides the length) or of the
shorter trailing remainder — so the drop equality says precisely that
this tail is byte-for-byte untouched. -/
theorem trans_loop_tail (f : List Nat → Option (List Nat)) (n : Nat)
    (hf : ∀ u b, f u = some b → b.length = u.length) :
    ∀ (fuel : Nat) (v w : List Nat), trans_loop f n fuel v = some w →
      ∃ i, n ∣ i ∧ (v.length = 0 ∨ i < v.length) ∧ v.length ≤ i + n ∧
        w.drop i = v.drop i := by
  intro fuel
  induction fuel with
  | zero =>
    intro v w h
    rw [trans_loop] at h
    by_cases hlt : n < v.length
    · rw [if_pos hlt] at h
      cases h
    · rw [if_neg hlt] at h
      cases h
      exact ⟨0, ⟨0, by omega⟩, by omega, by omega, rfl⟩
  | succ fuel ih =>
    intro v w h
    rw [trans_loop] at h
    by_cases hlt : n < v.length
    · rw [if_pos hlt] at h
      by_cases hn0 : n = 0
      · rw [if_pos hn0] at h
        cases h
      · rw [if_neg hn0] at h
        cases hb : f (v.take n) with
        | none =>
          rw [hb] at h
          cases h
        | some b =>
          rw [hb] at h
          cases hw : trans_loop f n fuel (v.drop n) with
          | none =>
            rw [hw] at h
            cases h
          | some w' =>
            rw [hw] at h
            simp only [Option.map_some'] at h
            cases h
            obtain ⟨i, hdvd, hzero, hlen, hdrop⟩ := ih (v.drop n) w' hw
            have hblen : b.length = n := by
              have h5 := hf (v.take n) b hb
              rw [List.length_take] at h5
              omega
            have hdl : (v.drop n).length = v.length - n := List.length_drop n v
            have h0' : i < (v.drop n).length := by
              rcases hzero with h0 | h0
              · omega
              · exact h0
            refine ⟨n + i, Nat.dvd_add (dvd_refl n) hdvd, by omega, by omega, ?_⟩
            rw [← List.drop_drop i n (b ++ w'), ← List.drop_drop i n v,
              List.drop_left' hblen, hdrop]
    · rw [if_neg hlt] at h
      cases h
      exact ⟨0, ⟨0, by omega⟩, by omega, by omega, rfl⟩

/-- One unfolding step of the block loop when a full block lies strictly
inside the buffer. -/
theorem trans_loop_step (f : List Nat → Option (List Nat)) (n fuel : Nat)
    (v b : List Nat) (hlt : n < v.length) (hn : n ≠ 0)
    (hb : f (v.take n) = some b) :
    trans_loop f n (fuel + 1) v
      = (trans_loop f n fuel (v.drop n)).map (fun w => b ++ w) := by
  rw [trans_loop, if_pos hlt, if_neg hn, hb]

/-- Round trip of the transposition cipher for duplicate-free, in-bounds,
surjective keys, by induction on the buffer length. -/
theorem trans_roundtrip_aux (key : List Nat) (hnd : key.Nodup)
    (hbd : ∀ a ∈ key, a < key.length)
    (hsurj : ∀ p, p < key.length → p ∈ key) (hn : 0 < key.length) :
    ∀ (L : Nat) (s : List Nat), s.length ≤ L →
      (encrypt_trans_vec key s).bind (decrypt_trans_vec key) = some s := by
  intro L
  induction L with
  | zero =>
    intro s hs
    rw [show encrypt_trans_vec key s = some s from
        trans_loop_of_le _ _ _ s (by omega)]
    simp only [Option.some_bind]
    exact trans_loop_of_le _ _ _ s (by omega)
  | succ L ihL =>
    intro s hs
    by_cases hle : s.length ≤ key.length
    · rw [show encrypt_trans_vec key s = some s from
          trans_loop_of_le _ _ _ s (by omega)]
      simp only [Option.some_bind]
      exact trans_loop_of_le _ _ _ s (by omega)
    · have hlt : key.length < s.length := by omega
      have htake : (s.take key.length).length = key.length := by
        rw [List.length_take]
        omega
      have hdl : (s.drop key.length).length = s.length - key.length :=
        List.length_drop key.length s
      obtain ⟨b, hbenc, hblen0, hbdec⟩ :=
        accord_roundtrip key (s.take key.length) hnd hbd hsurj htake
      have hblen : b.length = key.length := by omega
      -- unfold the encryption loop one block
      have henc1 : encrypt_trans_vec key s
          = (trans_loop (encrypt_with_accord key) key.length (s.length - 1)
              (s.drop key.length)).map (fun w => b ++ w) := by
        rw [encrypt_trans_vec, show s.length = s.length - 1 + 1 from by omega]
        exact trans_loop_step _ _ _ s b hlt (by omega) hbenc
      -- normalize the fuel of the recursive call
      have hirrel : trans_loop (encrypt_with_accord key) key.length
            (s.length - 1) (s.drop key.length)
          = encrypt_trans_vec key (s.drop key.length) := by
        rw [encrypt_trans_vec]
        exact trans_loop_fuel_irrel _ _ hn (s.drop key.length).length
          (s.drop key.length) (le_refl _) (s.length - 1) (s.drop key.length).length
          (by omega) (le_refl _)
      have hih := ihL (s.drop key.length) (by omega)
      cases hw : encrypt_trans_vec key (s.drop key.length) with
      | none =>
        rw [hw] at hih
        simp at hih
      | some w' =>
        rw [hw] at hih
        simp only [Option.some_bind] at hih
        have hwlen : w'.length = s.length - key.length := by
          have h5 := trans_loop_length (encrypt_with_accord key) key.length
            (fun u c hc => encrypt_with_accord_length key u c hc)
            (s.drop key.length).length (s.drop key.length) w' hw
          omega
        rw [henc1, hirrel, hw]
        simp only [Option.map_some', Option.some_bind]
        -- decrypt the concatenated buffer
        have hlen2 : (b ++ w').length = s.length := by
          simp only [List.length_append]
          omega
        have hlt2 : key.length < (b ++ w').length := by omega
        have hbdec2 : decrypt_with_accord key ((b ++ w').take key.length)
            = some (s.take key.length) := by
          rw [List.take_left' hblen]
          exact hbdec
        have hdec1 : decrypt_trans_vec key (b ++ w')
            = (trans_loop (decrypt_with_accord key) key.length
                ((b ++ w').length - 1) ((b ++ w').drop key.length)).map
                  (fun w => s.take key.length ++ w) := by
          rw [decrypt_trans_vec,
            show (b ++ w').length = (b ++ w').length - 1 + 1 from by omega]
          exact
            trans_loop_step _ _ _ (b ++ w') (s.take key.length) hlt2 (by omega) hbdec2
        rw [hdec1, List.drop_left' hblen]
        have hirrel2 : trans_loop (decrypt_with_accord key) key.length
              ((b ++ w').length - 1) w'
            = decrypt_trans_vec key w' := by
          rw [decrypt_trans_vec]
          exact trans_loop_fuel_irrel _ _ hn w'.length w' (le_refl _)
            ((b ++ w').length - 1) w'.length (by omega) (le_refl _)
        rw [hirrel2, hih]
        simp only [Option.map_some', Option.some.injEq]
        exact List.take_append_drop key.length s

/-- C2 (amended): For every nonempty key that is a true permutation of
`0..n-1` (`n` = key length) and every string `s`, transposition decrypt
applied to transposition encrypt of `s` with the same key returns `s`
exactly: every processed block is restored and the untouched tail is
identical in both directions.  (The empty key — the permutation of the
empty range — must be excluded: the source loop `i += 0` then never
advances on a nonempty buffer.) -/
theorem trans_roundtrip (key s : List Nat)
    (hperm : key.Perm (List.range key.length)) (hn : 0 < key.length) :
    ((Ciphers.TransCipher key).encrypt s).bind (Ciphers.TransCipher key).decrypt
      = some s := by
  have hnd : key.Nodup := hperm.nodup_iff.mpr (List.nodup_range key.length)
  have hbd : ∀ a ∈ key, a < key.length :=
    fun a ha => List.mem_range.mp (hperm.mem_iff.mp ha)
  have hsurj : ∀ p, p < key.length → p ∈ key :=
    fun p hp => hperm.mem_iff.mpr (List.mem_range.mpr hp)
  exact trans_roundtrip_aux key hnd hbd hsurj hn s.length s (le_refl _)

/-- Witness for C2 at `key = [0]`, `s = "ab"`. -/
theorem trans_roundtrip_witness :
    ((Ciphers.TransCipher [0]).encrypt [97, 98]).bind
      (Ciphers.TransCipher [0]).decrypt = some [97, 98] :=
  trans_roundtrip [0] [97, 98]
    (by rw [show List.range ([0] : List Nat).length = [0] from rfl])
    (by norm_num)

/-- Counterexample to C2 as stated: the empty key is a true permutation of
`0..n-1` for `n = 0`, but on the one-byte string `"a"` the source encrypt
loop never terminates (`i + 0 < 1` forever), so decrypt-of-encrypt does
not return the string. -/
theorem trans_roundtrip_counterexample :
    (([] : List Nat).Perm (List.range ([] : List Nat).length)) ∧
    ((Ciphers.TransCipher ([] : List Nat)).encrypt [97]).bind
      (Ciphers.TransCipher ([] : List Nat)).decrypt ≠ some [97] := by
  constructor
  · simp
  · decide

/-- C3: Transposition encrypt and decrypt process a block only while
`block_start + n < buffer_length` (strict), so the tail from the start of
the final aligned block (or shorter trailing remainder) onwards is left
byte-for-byte untouched: the multiple of `n` that is strictly below the
length but within `n` of it — for `n ≥ 1` and a nonempty string there is
exactly one such `i`, the last block start — marks an untouched suffix.
In particular, for a string whose length equals the key length, both
encrypt and decrypt return the string unchanged. -/
theorem trans_strict_boundary (key s : List Nat) :
    (∀ (w : List Nat), (Ciphers.TransCipher key).encrypt s = some w →
      ∃ i, key.length ∣ i ∧ (s.length = 0 ∨ i < s.length) ∧
        s.length ≤ i + key.length ∧ w.drop i = s.drop i) ∧
    (∀ (w : List Nat), (Ciphers.TransCipher key).decrypt s = some w →
      ∃ i, key.length ∣ i ∧ (s.length = 0 ∨ i < s.length) ∧
        s.length ≤ i + key.length ∧ w.drop i = s.drop i) ∧
    (s.length = key.length →
      (Ciphers.TransCipher key).encrypt s = some s ∧
      (Ciphers.TransCipher key).decrypt s = some s) := by
  refine ⟨?_, ?_, ?_⟩
  · intro w h
    exact trans_loop_tail (encrypt_with_accord key) key.length
      (fun u b hb => encrypt_with_accord_length key u b hb) s.length s w h
  · intro w h
    exact trans_loop_tail (decrypt_with_accord key) key.length
      (fun u b hb => decrypt_with_accord_length key u b hb) s.length s w h
  · intro hlen
    exact ⟨trans_loop_of_le _ _ _ s (by omega),
      trans_loop_of_le _ _ _ s (by omega)⟩

/-- Witness for C3: a processed block at `key = [1, 0]`, `s = "abc"`
(untouched suffix behind a multiple of the block size), and the skipped
single aligned block on `s = "ab"`. -/
theorem trans_strict_boundary_witness :
    (∃ i, ([1, 0] : List Nat).length ∣ i ∧
      (([97, 98, 99] : List Nat).length = 0 ∨ i < ([97, 98, 99] : List Nat).length) ∧
      ([97, 98, 99] : List Nat).length ≤ i + ([1, 0] : List Nat).length ∧
      ([98, 97, 99] : List Nat).drop i = ([97, 98, 99] : List Nat).drop i) ∧
    ((Ciphers.TransCipher [1, 0]).encrypt [97, 98] = some [97, 98] ∧
      (Ciphers.TransCipher [1, 0]).decrypt [97, 98] = some [97, 98]) :=
  ⟨(trans_strict_boundary [1, 0] [97, 98, 99]).1 [98, 97, 99] rfl,
    (trans_strict_boundary [1, 0] [97, 98]).2.2 rfl⟩

/-- C6 (amended): For every nonempty key sequence all of whose entries are
below the key length — including non-permutations with repeated entries —
encrypt and decrypt yield defined (and, being functions, deterministic)
results: every block index `acc[i]` used to read or write stays in bounds
and no failure is reachable.  Keys with an entry `≥ n` are excluded: they
reach an out-of-range access (see the counterexample). -/
theorem trans_defined_of_bounded (key s : List Nat) (hn : 0 < key.length)
    (hbd : ∀ a ∈ key, a < key.length) :
    (∃ w, (Ciphers.TransCipher key).encrypt s = some w) ∧
    (∃ w, (Ciphers.TransCipher key).decrypt s = some w) := by
  constructor
  · have h9 := trans_loop_some (encrypt_with_accord key) key.length hn
      ?_ s.length s (le_refl _)
    · exact h9
    · intro u hu
      obtain ⟨b, hb, _⟩ := encrypt_with_accord_some key u hu hbd
      exact ⟨b, hb⟩
  · have h9 := trans_loop_some (decrypt_with_accord key) key.length hn
      ?_ s.length s (le_refl _)
    · exact h9
    · intro u hu
      obtain ⟨b, hb, _⟩ := decrypt_with_accord_some key u hu hbd
      exact ⟨b, hb⟩

/-- Witness for C6 at the non-permutation key `[0, 0]` (repeated entry,
all entries in bounds) on `s = "abc"`. -/
theorem trans_defined_of_bounded_witness :
    (∃ w, (Ciphers.TransCipher [0, 0]).encrypt [97, 98, 99] = some w) ∧
    (∃ w, (Ciphers.TransCipher [0, 0]).decrypt [97, 98, 99] = some w) :=
  trans_defined_of_bounded [0, 0] [97, 98, 99] (by norm_num) (by decide)

/-- Counterexample to C6 as stated: with the key `[1]` (entry `1` not less
than the key length `1`), both encrypt and decrypt reach the out-of-range
block access `v[acc[i]]` on any string long enough to process a block —
the Rust code panics, no defined result exists. -/
theorem trans_out_of_range_counterexample :
    (Ciphers.TransCipher [1]).encrypt [97, 98] = none ∧
    (Ciphers.TransCipher [1]).decrypt [97, 98] = none := by
  exact ⟨rfl, rfl⟩

/-- C10: For every cipher variant and every input string, whenever encrypt
or decrypt returns a string, its length equals the input's length: both
transforms only overwrite bytes in place and never insert, append or
remove bytes. -/
theorem encrypt_decrypt_length (c : Ciphers) (s w : List Nat) :
    (c.encrypt s = some w → w.length = s.length) ∧
    (c.decrypt s = some w → w.length = s.length) := by
  cases c with
  | ShiftCipher key =>
    constructor
    · intro h
      simp only [Ciphers.encrypt, Option.some.injEq] at h
      subst h
      simp [shift_encrypt, rot_vec_up]
    · intro h
      simp only [Ciphers.decrypt, Option.some.injEq] at h
      subst h
      simp [shift_decrypt, rot_vec_down]
  | TransCipher key =>
    constructor
    · intro h
      exact trans_loop_length (encrypt_with_accord key) key.length
        (fun u b hb => encrypt_with_accord_length key u b hb) s.length s w h
    · intro h
      exact trans_loop_length (decrypt_with_accord key) key.length
        (fun u b hb => decrypt_with_accord_length key u b hb) s.length s w h

/-- Witness for C10 at the transposition cipher `[1, 0]` on `"abc"`. -/
theorem encrypt_decrypt_length_witness :
    ([98, 97, 99] : List Nat).length = ([97, 98, 99] : List Nat).length :=
  (encrypt_decrypt_length (Ciphers.TransCipher [1, 0]) [97, 98, 99] [98, 97, 99]).1 rfl
